/-
Formal model of the dynamic array in src/vector.c.

Shallow embedding conventions:
- A stored element handle (a C `void *`) is modelled as `Option α`: `none` is
  the NULL / empty marker, `some x` is an owned payload of abstract value `x`.
- The user-supplied copy constructor is an abstract function `α → α` carried in
  the state; `element ? copy_constructor(element) : NULL` becomes
  `Option.map copy_constructor element`.  The destructor is value-invisible
  (releasing a payload does not change any value the container stores), so a
  destructor call is modelled as the slot read that produces its argument.
  The default constructor is modelled by the `Option α` value it returns.
- The backing array `void **array` with `capacity` allocated slots is a
  `List (Option α)` whose length is the capacity (vector.c always keeps the
  allocation size equal to the `capacity` field).
- `size_t` values are `Nat`; wrap-around is written out with `% 2 ^ 64`
  exactly where the source can underflow or overflow (the `--this->size` in
  vector_pop_back, the `i - 1` / `i--` of the vector_insert loop, and the
  `new_capacity *= GROWTH_FACTOR` of get_new_capacity).  Increments such as
  `this->size++` cannot wrap in any execution that reaches them (they would
  require size = 2^64 - 1 together with a successful slot write at that index,
  which no allocatable capacity admits), so they stay plain `+ 1`.
- Every slot access is bounds-checked against the allocation: an access at an
  index outside `[0, capacity)` is undefined behaviour in the source and is
  modelled as the error `VErr.oob`.  A failing C `assert` is `VErr.assertFail`.
  A source loop that can never terminate (the get_new_capacity loop after its
  size_t overflow, the vector_insert shift loop after its index wraps) is
  modelled as the error `VErr.hang`.
-/
import Mathlib

/-- Modulus of the 64-bit size_t arithmetic used by vector.c. -/
def U64 : Nat := 2 ^ 64

/-- Initial capacity of a vector, vector.c line 10. -/
def INITIAL_CAPACITY : Nat := 8

/-- Growth factor for automatic reallocation, vector.c line 15. -/
def GROWTH_FACTOR : Nat := 2

/-- Decrement by one in size_t arithmetic: `n - 1` computed modulo `2 ^ 64`,
which wraps to `2 ^ 64 - 1` when `n = 0`. -/
def usub1 (n : Nat) : Nat := (n + (U64 - 1)) % U64

/-- Outcomes of a vector operation that does not run to normal completion. -/
inductive VErr where
  /-- A C `assert` in the source fails. -/
  | assertFail
  /-- A slot access at an index outside the allocated array: undefined
  behaviour in the source. -/
  | oob
  /-- A source loop that never terminates. -/
  | hang
deriving DecidableEq

/-- The `struct vector` of vector.c (lines 17-46).  The `capacity` field is
represented by `arr.length`: the source keeps the allocation size and the
`capacity` field equal at all times.  The destructor callback is not carried
because destruction is value-invisible. -/
structure Vec (α : Type) where
  copy_constructor : α → α
  default_constructor : Option α
  arr : List (Option α)
  size : Nat

variable {α : Type}

/-- Bounds-checked slot read `this->array[i]`. -/
def readSlot (v : Vec α) (i : Nat) : Except VErr (Option α) :=
  if h : i < v.arr.length then Except.ok (v.arr.get ⟨i, h⟩) else Except.error VErr.oob

/-- Bounds-checked slot write `this->array[i] = x`. -/
def writeSlot (v : Vec α) (i : Nat) (x : Option α) : Except VErr (Vec α) :=
  if i < v.arr.length then Except.ok { v with arr := v.arr.set i x } else Except.error VErr.oob

/-- The expression `element ? copy_constructor(element) : NULL` used by
vector_set, vector_push_back and vector_insert. -/
def copyIn (v : Vec α) (element : Option α) : Option α :=
  Option.map v.copy_constructor element

/-- The loop of get_new_capacity (vector.c lines 80-83):
`new_capacity = 1; while (new_capacity < target) new_capacity *= GROWTH_FACTOR;`
in size_t arithmetic.  Once `new_capacity` reaches `2 ^ 63` while still below
`target`, the multiplication overflows to `0` and the loop can never exit, so
running out of fuel (`none`) happens exactly when the source loop diverges;
66 units of fuel cover every terminating run (at most 64 doublings). -/
def gncLoop (fuel new_capacity target : Nat) : Option Nat :=
  if new_capacity < target then
    match fuel with
    | 0 => none
    | fuel' + 1 => gncLoop fuel' (new_capacity * GROWTH_FACTOR % U64) target
  else some new_capacity

/-- get_new_capacity, vector.c lines 74-85: the smallest power of
GROWTH_FACTOR that is ≥ target; `none` when the size_t loop diverges
(target > 2 ^ 63). -/
def get_new_capacity (target : Nat) : Option Nat :=
  gncLoop 66 1 target

/-- vector_create, vector.c lines 87-107: size 0, capacity INITIAL_CAPACITY,
all slots NULL. -/
def vector_create (copy : α → α) (dflt : Option α) : Vec α :=
  { copy_constructor := copy
    default_constructor := dflt
    arr := List.replicate INITIAL_CAPACITY none
    size := 0 }

/-- vector_size, vector.c lines 133-137. -/
def vector_size (v : Vec α) : Nat := v.size

/-- vector_capacity, vector.c lines 161-164. -/
def vector_capacity (v : Vec α) : Nat := v.arr.length

/-- vector_empty, vector.c lines 166-169. -/
def vector_empty (v : Vec α) : Bool := v.size == 0

/-- vector_reserve, vector.c lines 171-180: no-op when n ≤ capacity, else
realloc to get_new_capacity(n) slots, NULL-filling the new slots. -/
def vector_reserve (v : Vec α) (n : Nat) : Except VErr (Vec α) :=
  if n ≤ v.arr.length then Except.ok v
  else
    match get_new_capacity n with
    | none => Except.error VErr.hang
    | some cap =>
      Except.ok { v with arr := v.arr ++ List.replicate (cap - v.arr.length) none }

/-- vector_push_back, vector.c lines 227-234: reserve(capacity + 1) when
size == capacity, then `array[size++] = element ? copy(element) : NULL`. -/
def vector_push_back (v : Vec α) (element : Option α) : Except VErr (Vec α) := do
  let v1 ← if v.size = v.arr.length then vector_reserve v (v.arr.length + 1) else Except.ok v
  let v2 ← writeSlot v1 v1.size (copyIn v1 element)
  Except.ok { v2 with size := v2.size + 1 }

/-- The while loop of vector_resize (vector.c lines 146-151): while size < n,
default-construct a temporary, push_back it (which stores a copy), destroy the
temporary.  Fuel `n - size` covers every iteration the source performs. -/
def resizeGrowLoop (fuel : Nat) (v : Vec α) (n : Nat) : Except VErr (Vec α) :=
  if v.size < n then
    match fuel with
    | 0 => Except.error VErr.hang
    | fuel' + 1 => do
      let v1 ← vector_push_back v v.default_constructor
      resizeGrowLoop fuel' v1 n
  else Except.ok v

/-- Body of the truncation loop of vector_resize (vector.c lines 153-156):
for i in [n, stop), destroy array[i] (the slot read) and set array[i] = NULL.
The fuel argument only bounds the recursion; it is instantiated with the exact
iteration count `stop - i`, so the fuel-exhaustion branch is unreachable. -/
def clearGo (fuel : Nat) (v : Vec α) (i stop : Nat) : Except VErr (Vec α) :=
  if i < stop then
    match fuel with
    | 0 => Except.error VErr.hang
    | fuel' + 1 => do
      let _ ← readSlot v i
      let v1 ← writeSlot v i none
      clearGo fuel' v1 (i + 1) stop
  else Except.ok v

/-- The truncation loop of vector_resize, entered at index i with bound stop. -/
def clearLoop (v : Vec α) (i stop : Nat) : Except VErr (Vec α) :=
  clearGo (stop - i) v i stop

/-- vector_resize, vector.c lines 139-159. -/
def vector_resize (v : Vec α) (n : Nat) : Except VErr (Vec α) := do
  let v1 ← if v.arr.length < n then vector_reserve v n else Except.ok v
  if v1.size < n then
    resizeGrowLoop (n - v1.size) v1 n
  else if n < v1.size then do
    let v2 ← clearLoop v1 n v1.size
    Except.ok { v2 with size := n }
  else Except.ok v1

/-- vector_set, vector.c lines 188-207: silent no-op when position > size;
destroy-and-overwrite when position < size; when position == size, call
vector_resize(this, position) if position == capacity, then append and
increment size. -/
def vector_set (v : Vec α) (position : Nat) (element : Option α) : Except VErr (Vec α) :=
  if v.size < position then Except.ok v
  else if position < v.size then do
    let _ ← readSlot v position
    writeSlot v position (copyIn v element)
  else do
    let v1 ← if position = v.arr.length then vector_resize v position else Except.ok v
    let v2 ← writeSlot v1 position (copyIn v1 element)
    Except.ok { v2 with size := v2.size + 1 }

/-- vector_get, vector.c lines 209-214: `assert(position < this->size)` then
return array[position] (the stored handle itself, no copy). -/
def vector_get (v : Vec α) (position : Nat) : Except VErr (Option α) :=
  if position < v.size then readSlot v position else Except.error VErr.assertFail

/-- vector_back, vector.c lines 222-225: returns the address
`this->array + this->size - 1`, modelled as the slot index `size - 1` in
size_t arithmetic.  The source contains no assert at all, so the embedding
has no failing branch. -/
def vector_back (v : Vec α) : Except VErr Nat :=
  Except.ok (usub1 v.size)

/-- vector_pop_back, vector.c lines 236-240:
`destructor(array[--size]); array[size] = NULL;`.  The decrement is size_t
arithmetic and wraps to `2 ^ 64 - 1` on an empty vector; there is no
`size > 0` assert in the source. -/
def vector_pop_back (v : Vec α) : Except VErr (Vec α) := do
  let newSize := usub1 v.size
  let _ ← readSlot v newSize
  writeSlot { v with size := newSize } newSize none

/-- The shift loop of vector_insert (vector.c lines 248-250):
`for (size_t i = size; i >= position; i--) array[i] = array[i-1];`.
Both `i - 1` and `i--` are size_t arithmetic: when `i = 0` the read address is
`array[2^64 - 1]`, and were every access to keep succeeding the wrapped index
would re-enter the loop forever, which the embedding reports as `hang`. -/
def insertShiftLoop (v : Vec α) (i position : Nat) : Except VErr (Vec α) :=
  if position ≤ i then do
    let x ← readSlot v (usub1 i)
    let v1 ← writeSlot v i x
    match i with
    | 0 => Except.error VErr.hang
    | i' + 1 => insertShiftLoop v1 i' position
  else Except.ok v

/-- vector_insert, vector.c lines 242-253: reserve(capacity + 1) when full,
shift via insertShiftLoop, place the copy at position, increment size. -/
def vector_insert (v : Vec α) (position : Nat) (element : Option α) : Except VErr (Vec α) := do
  let v1 ← if v.size = v.arr.length then vector_reserve v (v.arr.length + 1) else Except.ok v
  let v2 ← insertShiftLoop v1 v1.size position
  let v3 ← writeSlot v2 position (copyIn v2 element)
  Except.ok { v3 with size := v3.size + 1 }

/-- Body of the shift loop of vector_erase (vector.c lines 264-267):
`for (size_t i = position; i < size; i++) array[i] = array[i+1];`.
Its last iteration reads the slot at index `size`.  The fuel argument only
bounds the recursion; it is instantiated with the exact iteration count, so
the fuel-exhaustion branch is unreachable. -/
def eraseShiftGo (fuel : Nat) (v : Vec α) (i stop : Nat) : Except VErr (Vec α) :=
  if i < stop then
    match fuel with
    | 0 => Except.error VErr.hang
    | fuel' + 1 => do
      let x ← readSlot v (i + 1)
      let v1 ← writeSlot v i x
      eraseShiftGo fuel' v1 (i + 1) stop
  else Except.ok v

/-- The shift loop of vector_erase, entered at index i with bound stop. -/
def eraseShiftLoop (v : Vec α) (i stop : Nat) : Except VErr (Vec α) :=
  eraseShiftGo (stop - i) v i stop

/-- vector_erase, vector.c lines 255-269: silent no-op when position ≥ size,
else destroy array[position] (the slot read), shift down, decrement size. -/
def vector_erase (v : Vec α) (position : Nat) : Except VErr (Vec α) :=
  if v.size ≤ position then Except.ok v
  else do
    let _ ← readSlot v position
    let v1 ← eraseShiftLoop v position v.size
    Except.ok { v1 with size := v1.size - 1 }

/-- The loop of vector_clear (vector.c lines 273-280): for i in [0, stop), if
array[i] is non-NULL, destroy it and set the slot to NULL.  The fuel argument
only bounds the recursion; it is instantiated with the exact iteration count,
so the fuel-exhaustion branch is unreachable. -/
def clearGuardGo (fuel : Nat) (v : Vec α) (i stop : Nat) : Except VErr (Vec α) :=
  if i < stop then
    match fuel with
    | 0 => Except.error VErr.hang
    | fuel' + 1 => do
      let x ← readSlot v i
      let v1 ←
        match x with
        | some _ => writeSlot v i none
        | none => Except.ok v
      clearGuardGo fuel' v1 (i + 1) stop
  else Except.ok v

/-- vector_clear, vector.c lines 271-283. -/
def vector_clear (v : Vec α) : Except VErr (Vec α) := do
  let v1 ← clearGuardGo v.size v 0 v.size
  Except.ok { v1 with size := 0 }

/-- Run a sequence of vector_push_back calls, threading the state. -/
def pushAllFrom (v : Vec α) (xs : List (Option α)) : Except VErr (Vec α) :=
  List.foldlM vector_push_back v xs

/-- A freshly created vector of Nat payloads with the identity copy
constructor and a NULL-returning default constructor. -/
def natEmpty : Vec Nat := vector_create id none

/-- The eight elements pushed to reach a full initial-capacity vector. -/
def pushes8 : List (Option Nat) := [some 0, some 1, some 2, some 3, some 4, some 5, some 6, some 7]

/-- The state after pushing pushes8 onto natEmpty: size 8 equals capacity 8. -/
def fullVec : Vec Nat :=
  { copy_constructor := id
    default_constructor := none
    arr := [some 0, some 1, some 2, some 3, some 4, some 5, some 6, some 7]
    size := 8 }

/-- The state after pushing two elements onto natEmpty. -/
def twoVec : Vec Nat :=
  { copy_constructor := id
    default_constructor := none
    arr := [some 1, some 2, none, none, none, none, none, none]
    size := 2 }

/-- A vector holding seven elements in its eight slots: size 7 < capacity 8. -/
def sevenVec : Vec Nat :=
  { copy_constructor := id
    default_constructor := none
    arr := [some 0, some 1, some 2, some 3, some 4, some 5, some 6, none]
    size := 7 }

/-- C1: the claim states that after every operation of every sequence on a
created vector, capacity is a power of 2 and capacity ≥ size.  The code
violates it: after eight pushes the vector is full (size = capacity = 8), and
the in-contract call set(v, 8, x) reaches the append branch, whose grow step
`vector_resize(this, position)` is a no-op because position = size = capacity,
so the append writes the slot at index 8 = capacity, outside the allocation;
the C execution then leaves size = 9 > capacity = 8. -/
theorem c1_set_on_full_vector_out_of_bounds :
    pushAllFrom natEmpty pushes8 = Except.ok fullVec ∧
    vector_size fullVec = 8 ∧ vector_capacity fullVec = 8 ∧
    vector_set fullVec 8 (some 99) = Except.error VErr.oob :=
  ⟨rfl, rfl, rfl, rfl⟩

/-- C3: the claim states that popBack and back assert size > 0 and fail fast
on an empty vector.  The code has no such assert: on a freshly created empty
vector, vector_pop_back performs `--this->size`, wrapping size to 2^64 - 1,
and then calls the destructor on the out-of-range slot at that index (no
assert fires, and the size field is mutated first), while vector_back returns
the address one slot before the array (slot index 2^64 - 1) instead of
failing. -/
theorem c3_pop_back_and_back_do_not_assert_on_empty :
    vector_size natEmpty = 0 ∧
    vector_pop_back natEmpty = Except.error VErr.oob ∧
    vector_back natEmpty = Except.ok (2 ^ 64 - 1) :=
  ⟨rfl, rfl, rfl⟩

/-- C4: the claim states that insert works for every position with
0 ≤ position ≤ size.  The code fails at position 0: the shift loop
`for (size_t i = size; i >= position; i--)` has an unsigned index, so its
condition never becomes false for position = 0; the iteration at i = 0 reads
`array[i - 1]` = array[2^64 - 1], far outside the allocation.  Shown here on
the reachable two-element vector (position 0 ≤ size = 2 is in contract). -/
theorem c4_insert_at_position_zero_out_of_bounds :
    pushAllFrom natEmpty [some 1, some 2] = Except.ok twoVec ∧
    vector_insert twoVec 0 (some 99) = Except.error VErr.oob :=
  ⟨rfl, rfl⟩

/-- C5: the claim states that set(v, size, x) grows the capacity when
position == capacity and then appends.  The grow step in the code is
`vector_resize(this, position)`, which with position = size = capacity = 8
takes none of its branches (n is neither above the capacity nor different
from the size) and returns the vector unchanged, so nothing grows and the
append writes the out-of-range slot at index 8 = capacity. -/
theorem c5_set_append_at_capacity_fails_to_grow :
    vector_resize fullVec 8 = Except.ok fullVec ∧
    vector_set fullVec 8 (some 5) = Except.error VErr.oob :=
  ⟨rfl, rfl⟩

/-- C8: the claim states that erase(v, position) with position < size always
destroys the element at position, shifts [position + 1, size) down and
decrements size.  On a full vector (size = capacity = 8, reached by eight
pushes) the shift loop runs i = 0..7 and its last iteration reads
`array[i + 1]` = array[8], one past the allocation. -/
theorem c8_erase_on_full_vector_out_of_bounds :
    vector_size fullVec = vector_capacity fullVec ∧
    vector_erase fullVec 0 = Except.error VErr.oob :=
  ⟨rfl, rfl⟩

/-- C10 counterexample: the claim states that for every reachable state and
position < size, the erase shift loop accesses only slot indices strictly
below the capacity, including the read of the slot at index size on the last
iteration.  The state fullVec is reachable (eight pushes) and has
size = capacity = 8, and the loop entered at position 0 with bound size = 8
hits the out-of-range read of slot 8 on its last iteration. -/
theorem c10_counterexample_erase_loop_reads_capacity_slot :
    pushAllFrom natEmpty pushes8 = Except.ok fullVec ∧
    eraseShiftLoop fullVec 0 8 = Except.error VErr.oob :=
  ⟨rfl, rfl⟩

/-- C7 counterexample: the claim states that for every n, reserve(v, n) ends
with capacity ≥ n.  For n = 2^63 + 1 (a valid size_t value) the
get_new_capacity loop doubles 1, 2, ..., 2^63, then overflows size_t to 0 and
loops forever, so the call never returns at all. -/
theorem c7_counterexample_reserve_hangs_beyond_2_pow_63 :
    vector_reserve natEmpty (2 ^ 63 + 1) = Except.error VErr.hang :=
  rfl

/-- C6 counterexample: the claim states that resize(v, n) always ends with
size = n.  For n = 2^63 + 1 (a valid size_t value, above the capacity 8) the
reserve step runs the get_new_capacity loop, which overflows size_t to 0 and
loops forever, so the call never returns and the size never becomes n. -/
theorem c6_counterexample_resize_hangs_beyond_2_pow_63 :
    vector_resize natEmpty (2 ^ 63 + 1) = Except.error VErr.hang :=
  rfl

/-- Bind on a successful Except computation just applies the continuation. -/
theorem exceptOkBind {β γ : Type} (a : β) (f : β → Except VErr γ) :
    (Except.ok a >>= f : Except VErr γ) = f a := rfl

/-- The ceiling base-2 logarithm of one past a power of 2. -/
theorem clog2_pow_succ (k : Nat) : Nat.clog 2 (2 ^ k + 1) = k + 1 := by
  have h1 : Nat.clog 2 (2 ^ k + 1) ≤ k + 1 := by
    rw [← Nat.le_pow_iff_clog_le (by norm_num)]
    have : 1 ≤ 2 ^ k := Nat.one_le_two_pow
    calc 2 ^ k + 1 ≤ 2 ^ k + 2 ^ k := by omega
    _ = 2 ^ (k + 1) := by ring
  have h2 : ¬ Nat.clog 2 (2 ^ k + 1) ≤ k := by
    rw [← Nat.le_pow_iff_clog_le (by norm_num)]
    omega
  omega

/-- The get_new_capacity loop, started at the power `2 ^ m`, terminates with
the power of 2 whose exponent is the ceiling base-2 logarithm of the target,
for every target within the non-overflowing range. -/
theorem gncLoop_eq_pow_clog (fuel : Nat) : ∀ m target, target ≤ 2 ^ 63 →
    m ≤ Nat.clog 2 target → Nat.clog 2 target ≤ m + fuel →
    gncLoop fuel (2 ^ m) target = some (2 ^ Nat.clog 2 target) := by
  induction fuel with
  | zero =>
    intro m target h1 h2 h3
    have hm : m = Nat.clog 2 target := by omega
    have ht : target ≤ 2 ^ m :=
      (Nat.le_pow_iff_clog_le (by norm_num)).mpr (by omega)
    unfold gncLoop
    rw [if_neg (by omega), hm]
  | succ fuel ih =>
    intro m target h1 h2 h3
    unfold gncLoop
    by_cases hlt : 2 ^ m < target
    · rw [if_pos hlt]
      have hmc : m < Nat.clog 2 target := by
        by_contra hc
        have : target ≤ 2 ^ m :=
          (Nat.le_pow_iff_clog_le (by norm_num)).mpr (by omega)
        omega
      have h63 : Nat.clog 2 target ≤ 63 :=
        (Nat.le_pow_iff_clog_le (by norm_num)).mp h1
      have hpow : 2 ^ m * GROWTH_FACTOR % U64 = 2 ^ (m + 1) := by
        have hmul : 2 ^ m * GROWTH_FACTOR = 2 ^ (m + 1) := by
          unfold GROWTH_FACTOR; ring
        rw [hmul]
        apply Nat.mod_eq_of_lt
        unfold U64
        exact Nat.pow_lt_pow_right (by norm_num) (by omega)
      rw [hpow]
      exact ih (m + 1) target h1 (by omega) (by omega)
    · rw [if_neg hlt]
      have hcm : Nat.clog 2 target ≤ m :=
        (Nat.le_pow_iff_clog_le (by norm_num)).mp (by omega)
      have hm : m = Nat.clog 2 target := by omega
      rw [hm]

/-- For targets up to `2 ^ 63`, get_new_capacity returns the smallest power
of 2 that is ≥ target, namely `2 ^ Nat.clog 2 target`. -/
theorem get_new_capacity_eq_pow_clog {target : Nat} (h : target ≤ 2 ^ 63) :
    get_new_capacity target = some (2 ^ Nat.clog 2 target) := by
  have h63 : Nat.clog 2 target ≤ 63 :=
    (Nat.le_pow_iff_clog_le (by norm_num)).mp h
  have := gncLoop_eq_pow_clog 66 0 target h (Nat.zero_le _) (by omega)
  simpa [get_new_capacity] using this

/-- Full behaviour of vector_reserve for a non-overflowing request: no-op
when n ≤ capacity, otherwise reallocation to `2 ^ Nat.clog 2 n` slots with
every existing slot preserved; size and callbacks never change. -/
theorem vector_reserve_spec (v : Vec α) (n : Nat) (hn : n ≤ 2 ^ 63) :
    ∃ w, vector_reserve v n = Except.ok w ∧
      w.size = v.size ∧
      w.copy_constructor = v.copy_constructor ∧
      w.default_constructor = v.default_constructor ∧
      v.arr.length ≤ w.arr.length ∧
      n ≤ w.arr.length ∧
      (∀ i, i < v.arr.length → w.arr[i]? = v.arr[i]?) ∧
      (n ≤ v.arr.length → w = v) ∧
      (v.arr.length < n → w.arr.length = 2 ^ Nat.clog 2 n) := by
  unfold vector_reserve
  by_cases hle : n ≤ v.arr.length
  · rw [if_pos hle]
    exact ⟨v, rfl, rfl, rfl, rfl, le_refl _, hle, fun i _ => rfl, fun _ => rfl,
      fun h => absurd hle (by omega)⟩
  · rw [if_neg hle, get_new_capacity_eq_pow_clog hn]
    have hncap : n ≤ 2 ^ Nat.clog 2 n := Nat.le_pow_clog (by norm_num) n
    have hlen : v.arr.length < n := by omega
    have hlcap : v.arr.length ≤ 2 ^ Nat.clog 2 n := by omega
    have hlength :
        (v.arr ++ List.replicate (2 ^ Nat.clog 2 n - v.arr.length) (none : Option α)).length
          = 2 ^ Nat.clog 2 n := by
      rw [List.length_append, List.length_replicate]
      omega
    refine ⟨_, rfl, rfl, rfl, rfl, ?_, ?_, ?_, ?_, ?_⟩
    · rw [hlength]; omega
    · rw [hlength]; omega
    · intro i hi
      rw [List.getElem?_append, if_pos hi]
    · intro h; omega
    · intro _; exact hlength

/-- Behaviour of vector_push_back from a state whose capacity is a power of
2 at least the size: the push succeeds, appends the copied element at the old
size, increments size, and preserves every earlier slot; the capacity stays a
power of 2. -/
theorem vector_push_back_spec (v : Vec α) (x : Option α)
    (hle : v.size ≤ v.arr.length) (hpow : ∃ k, v.arr.length = 2 ^ k)
    (hb : v.size + 1 ≤ 2 ^ 63) :
    ∃ w, vector_push_back v x = Except.ok w ∧
      w.size = v.size + 1 ∧
      w.copy_constructor = v.copy_constructor ∧
      w.default_constructor = v.default_constructor ∧
      w.size ≤ w.arr.length ∧ (∃ k, w.arr.length = 2 ^ k) ∧
      v.arr.length ≤ w.arr.length ∧
      (∀ i, i < v.size → w.arr[i]? = v.arr[i]?) ∧
      w.arr[v.size]? = some (Option.map v.copy_constructor x) := by
  obtain ⟨k, hk⟩ := hpow
  by_cases hsz : v.size = v.arr.length
  · obtain ⟨w1, he1, hsz1, hcp1, hdf1, hmono1, hn1, hpres1, _, hgrow1⟩ :=
      vector_reserve_spec v (v.arr.length + 1) (by omega)
    have hlen1 : w1.arr.length = 2 ^ (k + 1) := by
      rw [hgrow1 (by omega), hk, clog2_pow_succ]
    have hw1sz : w1.size = v.size := hsz1
    have hwlt : w1.size < w1.arr.length := by
      rw [hw1sz, hlen1]
      have : 1 ≤ 2 ^ k := Nat.one_le_two_pow
      have : v.size = 2 ^ k := by omega
      have hp : 2 ^ (k + 1) = 2 * 2 ^ k := by ring
      omega
    have heq : vector_push_back v x =
        Except.ok { w1 with arr := w1.arr.set w1.size (copyIn w1 x), size := w1.size + 1 } := by
      unfold vector_push_back
      rw [if_pos hsz, he1, exceptOkBind]
      beta_reduce
      unfold writeSlot
      rw [if_pos hwlt, exceptOkBind]
    refine ⟨_, heq, ?_, ?_, ?_, ?_, ?_, ?_, ?_, ?_⟩
    · simp [hw1sz]
    · exact hcp1
    · exact hdf1
    · simp [List.length_set, hlen1, hw1sz]
      have : 1 ≤ 2 ^ k := Nat.one_le_two_pow
      have : v.size = 2 ^ k := by omega
      have hp : 2 ^ (k + 1) = 2 * 2 ^ k := by ring
      omega
    · exact ⟨k + 1, by simp [List.length_set, hlen1]⟩
    · simp [List.length_set, hlen1, hk]
      have : 1 ≤ 2 ^ k := Nat.one_le_two_pow
      have hp : 2 ^ (k + 1) = 2 * 2 ^ k := by ring
      omega
    · intro i hi
      have hne : w1.size ≠ i := by omega
      simp only [List.getElem?_set_ne hne]
      exact hpres1 i (by omega)
    · have : w1.size = v.size := hw1sz
      rw [← this]
      rw [List.getElem?_set_eq_of_lt _ hwlt]
      simp [copyIn, hcp1]
  · have hlt : v.size < v.arr.length := by omega
    have heq : vector_push_back v x =
        Except.ok { v with arr := v.arr.set v.size (copyIn v x), size := v.size + 1 } := by
      unfold vector_push_back
      rw [if_neg hsz, exceptOkBind]
      beta_reduce
      unfold writeSlot
      rw [if_pos hlt, exceptOkBind]
    refine ⟨_, heq, rfl, rfl, rfl, ?_, ?_, ?_, ?_, ?_⟩
    · simp [List.length_set]; omega
    · exact ⟨k, by simp [List.length_set, hk]⟩
    · simp [List.length_set]
    · intro i hi
      have hne : v.size ≠ i := by omega
      simp only [List.getElem?_set_ne hne]
    · rw [List.getElem?_set_eq_of_lt _ hlt]
      simp [copyIn]

/-- Behaviour of a sequence of vector_push_back calls, by induction on the
pushed list: all pushes succeed, size grows by the length of the list, old
slots are untouched, and slot size + i holds the copy of the i-th pushed
element. -/
theorem pushAllFrom_spec (xs : List (Option α)) : ∀ v : Vec α,
    v.size ≤ v.arr.length → (∃ k, v.arr.length = 2 ^ k) →
    v.size + xs.length ≤ 2 ^ 63 →
    ∃ w, pushAllFrom v xs = Except.ok w ∧
      w.size = v.size + xs.length ∧
      w.copy_constructor = v.copy_constructor ∧
      w.size ≤ w.arr.length ∧
      (∀ i, i < v.size → w.arr[i]? = v.arr[i]?) ∧
      (∀ i (h : i < xs.length),
        w.arr[v.size + i]? = some (Option.map v.copy_constructor (xs.get ⟨i, h⟩))) := by
  induction xs with
  | nil =>
    intro v h1 h2 h3
    refine ⟨v, rfl, by simp, rfl, h1, fun i _ => rfl, fun i h => absurd h (by simp)⟩
  | cons x xs ih =>
    intro v h1 h2 h3
    obtain ⟨w1, he1, hsz1, hcp1, hdf1, hle1, hpow1, hmono1, hpres1, hat1⟩ :=
      vector_push_back_spec v x h1 h2 (by simp at h3; omega)
    obtain ⟨w, he, hsz, hcp, hle, hpres, hat⟩ :=
      ih w1 hle1 hpow1 (by simp at h3 ⊢; omega)
    have hfold : pushAllFrom v (x :: xs) = pushAllFrom w1 xs := by
      unfold pushAllFrom
      rw [List.foldlM_cons, he1, exceptOkBind]
    refine ⟨w, by rw [hfold, he], by simp [hsz, hsz1]; omega, by rw [hcp, hcp1], hle, ?_, ?_⟩
    · intro i hi
      rw [hpres i (by omega), hpres1 i hi]
    · intro i hilen
      match i with
      | 0 =>
        have : v.size + 0 < w1.size := by omega
        rw [hpres (v.size + 0) (by omega)]
        simpa using hat1
      | i + 1 =>
        have h2' : i < xs.length := by simp at hilen; omega
        have := hat i h2'
        rw [hsz1] at this
        have harith : v.size + (i + 1) = v.size + 1 + i := by omega
        rw [harith, this, hcp1]
        simp [List.get]

/-- A slot read returns exactly the value that list indexing reports. -/
theorem readSlot_eq_of_getElem? {v : Vec α} {i : Nat} {x : Option α}
    (h : v.arr[i]? = some x) : readSlot v i = Except.ok x := by
  have hlt : i < v.arr.length := by
    by_contra hc
    rw [List.getElem?_eq_none (by omega)] at h
    exact Option.noConfusion h
  unfold readSlot
  rw [dif_pos hlt]
  rw [List.getElem?_eq_getElem hlt] at h
  have hx : v.arr[i] = x := by injection h
  rw [List.get_eq_getElem, hx]

/-- C2: for every sequence of pushBack calls on a freshly created vector
(of any length up to 2 ^ 63, the range in which the capacity doubling cannot
overflow size_t), the final size equals the number of pushes and get(i)
returns the copy of the i-th pushed value, in push order. -/
theorem c2_push_back_sequence_spec (copy : α → α) (dflt : Option α)
    (xs : List (Option α)) (hN : xs.length ≤ 2 ^ 63) :
    ∃ w, pushAllFrom (vector_create copy dflt) xs = Except.ok w ∧
      vector_size w = xs.length ∧
      ∀ i (hi : i < xs.length),
        vector_get w i = Except.ok (Option.map copy (xs.get ⟨i, hi⟩)) := by
  have hc : (vector_create copy dflt).size = 0 := rfl
  have hl : (vector_create copy dflt).arr.length = 8 := by
    simp [vector_create, INITIAL_CAPACITY]
  obtain ⟨w, he, hsz, hcp, hle, _hpres, hat⟩ :=
    pushAllFrom_spec xs (vector_create copy dflt)
      (by rw [hc, hl]; omega) (⟨3, by rw [hl]; norm_num⟩) (by rw [hc]; omega)
  rw [hc] at hsz hat
  refine ⟨w, he, by simpa [vector_size] using hsz, ?_⟩
  intro i hi
  have hw : w.arr[i]? = some (Option.map copy (xs.get ⟨i, hi⟩)) := by
    have := hat i hi
    simpa [vector_create] using this
  unfold vector_get
  rw [if_pos (by omega), readSlot_eq_of_getElem? hw]

/-- C2 witness: the push-sequence theorem instantiated with three concrete
pushed values. -/
theorem c2_witness :
    ∃ w, pushAllFrom (vector_create (id : Nat → Nat) none)
        [some 10, some 20, some 30] = Except.ok w ∧
      vector_size w = [some 10, some 20, some 30].length ∧
      ∀ i (hi : i < [some 10, some 20, some 30].length),
        vector_get w i = Except.ok (Option.map id ([some 10, some 20, some 30].get ⟨i, hi⟩)) :=
  c2_push_back_sequence_spec id none [some 10, some 20, some 30] (by norm_num)

/-- C7 amended: for every n ≤ 2 ^ 63, reserve(v, n) grows the capacity to
the smallest power of 2 that is ≥ n when n > capacity and is a no-op
otherwise; afterwards capacity ≥ n, the capacity never shrank, and size and
the stored slots are unchanged.  The bound on n is forced by the
counterexample: above it the capacity loop never terminates. -/
theorem c7_reserve_smallest_pow2 (v : Vec α) (n : Nat)
    (hvalid : v.size ≤ v.arr.length) (hn : n ≤ 2 ^ 63) :
    ∃ w, vector_reserve v n = Except.ok w ∧
      vector_size w = vector_size v ∧
      vector_capacity v ≤ vector_capacity w ∧
      n ≤ vector_capacity w ∧
      (n ≤ vector_capacity v → w = v) ∧
      (vector_capacity v < n →
        (∃ k, vector_capacity w = 2 ^ k) ∧
        (∀ m, (∃ k, m = 2 ^ k) → n ≤ m → vector_capacity w ≤ m)) ∧
      (∀ i, i < v.size → w.arr[i]? = v.arr[i]?) := by
  obtain ⟨w, he, hsz, _, _, hmono, hcap, hpres, hnoop, hgrow⟩ := vector_reserve_spec v n hn
  refine ⟨w, he, hsz, hmono, hcap, hnoop, ?_, fun i hi => hpres i (by omega)⟩
  intro hlt
  have hw : vector_capacity w = 2 ^ Nat.clog 2 n := hgrow hlt
  constructor
  · exact ⟨_, hw⟩
  · rintro m ⟨j, hj⟩ hnm
    subst hj
    have hcl : Nat.clog 2 n ≤ j := (Nat.le_pow_iff_clog_le (by norm_num)).mp hnm
    rw [hw]
    exact Nat.pow_le_pow_right (by norm_num) hcl

/-- C7 witness: the reserve theorem instantiated at the fresh vector with
n = 20, which grows the capacity from 8 to 32. -/
theorem c7_witness :
    ∃ w, vector_reserve natEmpty 20 = Except.ok w ∧
      vector_size w = vector_size natEmpty ∧
      vector_capacity natEmpty ≤ vector_capacity w ∧
      20 ≤ vector_capacity w ∧
      (20 ≤ vector_capacity natEmpty → w = natEmpty) ∧
      (vector_capacity natEmpty < 20 →
        (∃ k, vector_capacity w = 2 ^ k) ∧
        (∀ m, (∃ k, m = 2 ^ k) → 20 ≤ m → vector_capacity w ≤ m)) ∧
      (∀ i, i < natEmpty.size → w.arr[i]? = natEmpty.arr[i]?) :=
  c7_reserve_smallest_pow2 natEmpty 20 (by decide) (by norm_num)

/-- C9: on a vector whose size is within its capacity, get(v, position)
fails with the assert (precondition violation) exactly when position ≥ size,
and otherwise returns the element stored at position itself: the returned
value is the slot content for every copy constructor, so the copy behaviour
is not invoked, and the embedding returns no modified state because the
source performs no write. -/
theorem c9_get_spec (v : Vec α) (position : Nat) (hvalid : v.size ≤ v.arr.length) :
    (position < v.size →
      ∃ x, v.arr[position]? = some x ∧ vector_get v position = Except.ok x) ∧
    (v.size ≤ position → vector_get v position = Except.error VErr.assertFail) := by
  constructor
  · intro h
    have hlt : position < v.arr.length := by omega
    refine ⟨v.arr.get ⟨position, hlt⟩, ?_, ?_⟩
    · rw [List.getElem?_eq_getElem hlt, List.get_eq_getElem]
    · unfold vector_get
      rw [if_pos h]
      unfold readSlot
      rw [dif_pos hlt]
  · intro h
    unfold vector_get
    rw [if_neg (by omega)]

/-- C9 witness: both branches of the get theorem at concrete positions 3
(in range) and 9 (out of range) of the eight-element vector. -/
theorem c9_witness :
    (∃ x, fullVec.arr[3]? = some x ∧ vector_get fullVec 3 = Except.ok x) ∧
    vector_get fullVec 9 = Except.error VErr.assertFail :=
  ⟨(c9_get_spec fullVec 3 (by decide)).1 (by decide),
   (c9_get_spec fullVec 9 (by decide)).2 (by decide)⟩

/-- One iteration of the erase shift loop when the loop condition holds. -/
theorem eraseShiftGo_succ (fuel : Nat) (v : Vec α) (i stop : Nat) (h : i < stop) :
    eraseShiftGo (fuel + 1) v i stop = (do
      let x ← readSlot v (i + 1)
      let v1 ← writeSlot v i x
      eraseShiftGo fuel v1 (i + 1) stop) := by
  conv =>
    lhs
    rw [eraseShiftGo]
  rw [if_pos h]

/-- The erase shift loop exits as soon as its condition fails. -/
theorem eraseShiftGo_done (fuel : Nat) (v : Vec α) (i stop : Nat) (h : ¬ i < stop) :
    eraseShiftGo fuel v i stop = Except.ok v := by
  cases fuel with
  | zero =>
    unfold eraseShiftGo
    rw [if_neg h]
  | succ fuel =>
    unfold eraseShiftGo
    rw [if_neg h]

/-- The erase shift loop succeeds whenever its bound is strictly below the
allocation length, preserving size and capacity. -/
theorem eraseShiftGo_ok (fuel : Nat) : ∀ (v : Vec α) (i stop : Nat),
    stop ≤ i + fuel → stop < v.arr.length →
    ∃ w, eraseShiftGo fuel v i stop = Except.ok w ∧
      w.size = v.size ∧ w.arr.length = v.arr.length := by
  induction fuel with
  | zero =>
    intro v i stop hf hs
    rw [eraseShiftGo_done _ _ _ _ (by omega)]
    exact ⟨v, rfl, rfl, rfl⟩
  | succ fuel ih =>
    intro v i stop hf hs
    by_cases hlt : i < stop
    · rw [eraseShiftGo_succ _ _ _ _ hlt]
      have hr : i + 1 < v.arr.length := by omega
      unfold readSlot
      rw [dif_pos hr, exceptOkBind]
      unfold writeSlot
      rw [if_pos (by omega : i < v.arr.length), exceptOkBind]
      obtain ⟨w, he, hsz, hlen⟩ :=
        ih { v with arr := v.arr.set i (v.arr.get ⟨i + 1, hr⟩) } (i + 1) stop
          (by omega) (by simpa [List.length_set] using hs)
      refine ⟨w, he, hsz, ?_⟩
      rw [hlen]
      simp [List.length_set]
    · rw [eraseShiftGo_done _ _ _ _ hlt]
      exact ⟨v, rfl, rfl, rfl⟩

/-- C10 amended: for every vector state with size below capacity and every
position < size, vector_erase completes without reaching the out-of-range
branch of any slot access (in particular the final read of the slot at index
size is in range) and decrements the size.  The hypothesis size < capacity is
forced by the counterexample: on a full vector the final read is at index
size = capacity, outside the allocation. -/
theorem c10_erase_stays_in_bounds_when_not_full (v : Vec α) (position : Nat)
    (h1 : position < v.size) (h2 : v.size < v.arr.length) :
    ∃ w, vector_erase v position = Except.ok w ∧ w.size = v.size - 1 := by
  unfold vector_erase
  rw [if_neg (by omega)]
  have hp : position < v.arr.length := by omega
  unfold readSlot
  rw [dif_pos hp, exceptOkBind]
  unfold eraseShiftLoop
  obtain ⟨w1, he1, hsz1, _⟩ :=
    eraseShiftGo_ok (v.size - position) v position v.size (by omega) h2
  rw [he1, exceptOkBind]
  exact ⟨_, rfl, by rw [hsz1]⟩

/-- C10 witness: erase at position 2 of a seven-element vector with
capacity 8 completes in bounds. -/
theorem c10_witness :
    ∃ w, vector_erase sevenVec 2 = Except.ok w ∧ w.size = sevenVec.size - 1 :=
  c10_erase_stays_in_bounds_when_not_full sevenVec 2 (by decide) (by decide)

/-- vector_push_back on a non-full vector writes the copy at index size and
increments size, with no reallocation. -/
theorem vector_push_back_no_grow (v : Vec α) (x : Option α) (h : v.size < v.arr.length) :
    vector_push_back v x =
      Except.ok { v with arr := v.arr.set v.size (copyIn v x), size := v.size + 1 } := by
  unfold vector_push_back
  rw [if_neg (by omega), exceptOkBind]
  beta_reduce
  unfold writeSlot
  rw [if_pos h, exceptOkBind]

/-- One iteration of the resize growth loop when the loop condition holds. -/
theorem resizeGrowLoop_succ (fuel : Nat) (v : Vec α) (n : Nat) (h : v.size < n) :
    resizeGrowLoop (fuel + 1) v n = (do
      let v1 ← vector_push_back v v.default_constructor
      resizeGrowLoop fuel v1 n) := by
  conv =>
    lhs
    rw [resizeGrowLoop]
  rw [if_pos h]

/-- The resize growth loop exits as soon as its condition fails. -/
theorem resizeGrowLoop_done (fuel : Nat) (v : Vec α) (n : Nat) (h : ¬ v.size < n) :
    resizeGrowLoop fuel v n = Except.ok v := by
  cases fuel with
  | zero =>
    unfold resizeGrowLoop
    rw [if_neg h]
  | succ fuel =>
    unfold resizeGrowLoop
    rw [if_neg h]

/-- The resize growth loop pushes copies of the default-constructed element
until the size reaches the requested count, never reallocating because the
count is within the capacity. -/
theorem resizeGrowLoop_spec (fuel : Nat) : ∀ (v : Vec α) (n : Nat),
    v.size ≤ v.arr.length → n ≤ v.arr.length → n ≤ v.size + fuel →
    ∃ w, resizeGrowLoop fuel v n = Except.ok w ∧
      w.size = max v.size n ∧
      w.arr.length = v.arr.length ∧
      w.copy_constructor = v.copy_constructor ∧
      w.default_constructor = v.default_constructor ∧
      (∀ j, j < v.size → w.arr[j]? = v.arr[j]?) ∧
      (∀ j, v.size ≤ j → j < n →
        w.arr[j]? = some (Option.map v.copy_constructor v.default_constructor)) := by
  induction fuel with
  | zero =>
    intro v n h1 h2 h3
    rw [resizeGrowLoop_done _ _ _ (by omega)]
    exact ⟨v, rfl, by omega, rfl, rfl, rfl, fun j _ => rfl, fun j hj hjn => by omega⟩
  | succ fuel ih =>
    intro v n h1 h2 h3
    by_cases hlt : v.size < n
    · rw [resizeGrowLoop_succ _ _ _ hlt,
        vector_push_back_no_grow v _ (by omega), exceptOkBind]
      set v1 : Vec α :=
        { v with arr := v.arr.set v.size (copyIn v v.default_constructor),
                 size := v.size + 1 } with hv1
      have hv1len : v1.arr.length = v.arr.length := by simp [hv1, List.length_set]
      obtain ⟨w, he, hsz, hlen, hcp, hdf, hpres, hnew⟩ :=
        ih v1 n (by rw [hv1len]; simp [hv1]; omega) (by omega) (by simp [hv1]; omega)
      have hv1sz : v1.size = v.size + 1 := rfl
      refine ⟨w, he, ?_, ?_, ?_, ?_, ?_, ?_⟩
      · rw [hsz, hv1sz]
        omega
      · rw [hlen, hv1len]
      · rw [hcp]
      · rw [hdf]
      · intro j hj
        rw [hpres j (by omega)]
        have hne : v.size ≠ j := by omega
        simp only [hv1]
        rw [List.getElem?_set_ne hne]
      · intro j hj hjn
        by_cases hje : j = v.size
        · rw [hje, hpres v.size (by omega)]
          simp only [hv1]
          rw [List.getElem?_set_eq_of_lt _ (by omega)]
          rfl
        · exact hnew j (by omega) hjn
    · rw [resizeGrowLoop_done _ _ _ hlt]
      exact ⟨v, rfl, by omega, rfl, rfl, rfl, fun j _ => rfl, fun j hj hjn => by omega⟩

/-- One iteration of the resize truncation loop when the loop condition
holds. -/
theorem clearGo_succ (fuel : Nat) (v : Vec α) (i stop : Nat) (h : i < stop) :
    clearGo (fuel + 1) v i stop = (do
      let _ ← readSlot v i
      let v1 ← writeSlot v i none
      clearGo fuel v1 (i + 1) stop) := by
  conv =>
    lhs
    rw [clearGo]
  rw [if_pos h]

/-- The resize truncation loop exits as soon as its condition fails. -/
theorem clearGo_done (fuel : Nat) (v : Vec α) (i stop : Nat) (h : ¬ i < stop) :
    clearGo fuel v i stop = Except.ok v := by
  cases fuel with
  | zero =>
    unfold clearGo
    rw [if_neg h]
  | succ fuel =>
    unfold clearGo
    rw [if_neg h]

/-- The resize truncation loop clears exactly the slots in [i, stop),
preserving everything else, whenever stop is within the allocation. -/
theorem clearGo_spec (fuel : Nat) : ∀ (v : Vec α) (i stop : Nat),
    stop ≤ i + fuel → stop ≤ v.arr.length →
    ∃ w, clearGo fuel v i stop = Except.ok w ∧
      w.size = v.size ∧ w.arr.length = v.arr.length ∧
      w.copy_constructor = v.copy_constructor ∧
      w.default_constructor = v.default_constructor ∧
      (∀ j, j < i → w.arr[j]? = v.arr[j]?) ∧
      (∀ j, i ≤ j → j < stop → w.arr[j]? = some none) ∧
      (∀ j, stop ≤ j → w.arr[j]? = v.arr[j]?) := by
  induction fuel with
  | zero =>
    intro v i stop h1 h2
    rw [clearGo_done _ _ _ _ (by omega)]
    exact ⟨v, rfl, rfl, rfl, rfl, rfl, fun j _ => rfl, fun j hj hjs => by omega,
      fun j _ => rfl⟩
  | succ fuel ih =>
    intro v i stop h1 h2
    by_cases hlt : i < stop
    · rw [clearGo_succ _ _ _ _ hlt]
      have hi : i < v.arr.length := by omega
      unfold readSlot
      rw [dif_pos hi, exceptOkBind]
      unfold writeSlot
      rw [if_pos hi, exceptOkBind]
      set v1 : Vec α := { v with arr := v.arr.set i none } with hv1
      have hv1len : v1.arr.length = v.arr.length := by simp [hv1, List.length_set]
      obtain ⟨w, he, hsz, hlen, hcp, hdf, hlo, hmid, hhi⟩ :=
        ih v1 (i + 1) stop (by omega) (by omega)
      refine ⟨w, he, hsz, by rw [hlen, hv1len], hcp, hdf, ?_, ?_, ?_⟩
      · intro j hj
        rw [hlo j (by omega)]
        simp only [hv1]
        rw [List.getElem?_set_ne (by omega : i ≠ j)]
      · intro j hj hjs
        by_cases hje : j = i
        · subst hje
          rw [hlo j (by omega)]
          simp only [hv1]
          rw [List.getElem?_set_eq_of_lt _ hi]
        · exact hmid j (by omega) hjs
      · intro j hj
        rw [hhi j hj]
        simp only [hv1]
        rw [List.getElem?_set_ne (by omega : i ≠ j)]
    · rw [clearGo_done _ _ _ _ hlt]
      exact ⟨v, rfl, rfl, rfl, rfl, rfl, fun j _ => rfl, fun j hj hjs => by omega,
        fun j _ => rfl⟩

/-- C6 amended: for every valid vector state and every n ≤ 2 ^ 63 (the
bound forced by the counterexample: above it the reserve step never
terminates), resize(v, n) ends with size = n; it reserves first when
n > capacity (to the smallest power of 2 that is ≥ n) and keeps the capacity
otherwise; retained slots are unchanged; when n > size the new slots in
[size, n) each hold the copy of a default-constructed element (the
temporary default element itself is destroyed immediately after the push);
when n < size the slots in [n, size) are destroyed and cleared; and when
n = size the call is a no-op. -/
theorem c6_resize_spec (v : Vec α) (n : Nat)
    (hvalid : v.size ≤ v.arr.length) (hn : n ≤ 2 ^ 63) :
    ∃ w, vector_resize v n = Except.ok w ∧
      vector_size w = n ∧
      (vector_capacity v < n →
        (∃ k, vector_capacity w = 2 ^ k) ∧ n ≤ vector_capacity w ∧
        (∀ m, (∃ k, m = 2 ^ k) → n ≤ m → vector_capacity w ≤ m)) ∧
      (n ≤ vector_capacity v → vector_capacity w = vector_capacity v) ∧
      (∀ i, i < v.size → i < n → w.arr[i]? = v.arr[i]?) ∧
      (v.size < n → ∀ i, v.size ≤ i → i < n →
        w.arr[i]? = some (Option.map v.copy_constructor v.default_constructor)) ∧
      (n < v.size → ∀ i, n ≤ i → i < v.size → w.arr[i]? = some none) ∧
      (n = v.size → w = v) := by
  unfold vector_resize
  by_cases hcap : v.arr.length < n
  · obtain ⟨v1, he1, hsz1, hcp1, hdf1, hmono1, hn1, hpres1, _, hgrow1⟩ :=
      vector_reserve_spec v n hn
    rw [if_pos hcap, he1, exceptOkBind]
    beta_reduce
    have hszlt : v1.size < n := by omega
    rw [if_pos hszlt]
    obtain ⟨w, he, hsz, hlen, hcp, hdf, hpres, hnew⟩ :=
      resizeGrowLoop_spec (n - v1.size) v1 n (by omega) (by omega) (by omega)
    refine ⟨w, he, ?_, ?_, ?_, ?_, ?_, ?_, ?_⟩
    · show w.size = n
      rw [hsz]
      exact Nat.max_eq_right (by omega)
    · intro _
      have hc : vector_capacity w = 2 ^ Nat.clog 2 n := by
        show w.arr.length = 2 ^ Nat.clog 2 n
        rw [hlen, hgrow1 hcap]
      refine ⟨⟨_, hc⟩, ?_, ?_⟩
      · rw [hc]
        exact Nat.le_pow_clog (by norm_num) n
      · rintro m ⟨j, hj⟩ hnm
        subst hj
        rw [hc]
        exact Nat.pow_le_pow_right (by norm_num)
          ((Nat.le_pow_iff_clog_le (by norm_num)).mp hnm)
    · intro h
      exfalso
      simp only [vector_capacity] at h
      omega
    · intro i hi hin
      rw [hpres i (by omega), hpres1 i (by omega)]
    · intro _ i hi hin
      have hx := hnew i (by omega) hin
      rw [hcp1, hdf1] at hx
      exact hx
    · intro h
      exfalso
      omega
    · intro h
      exfalso
      omega
  · rw [if_neg hcap, exceptOkBind]
    beta_reduce
    by_cases hlt : v.size < n
    · rw [if_pos hlt]
      obtain ⟨w, he, hsz, hlen, hcp, hdf, hpres, hnew⟩ :=
        resizeGrowLoop_spec (n - v.size) v n hvalid (by omega) (by omega)
      refine ⟨w, he, ?_, ?_, ?_, ?_, ?_, ?_, ?_⟩
      · show w.size = n
        rw [hsz]
        exact Nat.max_eq_right (by omega)
      · intro h
        exfalso
        simp only [vector_capacity] at h
        omega
      · intro _
        show w.arr.length = v.arr.length
        exact hlen
      · intro i hi hin
        exact hpres i hi
      · intro _ i hi hin
        exact hnew i hi hin
      · intro h
        exfalso
        omega
      · intro h
        exfalso
        omega
    · by_cases hgt : n < v.size
      · rw [if_neg hlt, if_pos hgt]
        unfold clearLoop
        obtain ⟨w1, he1, hsz1, hlen1, hcp1, hdf1, hlo, hmid, hhi⟩ :=
          clearGo_spec (v.size - n) v n v.size (by omega) (by omega)
        rw [he1, exceptOkBind]
        refine ⟨_, rfl, rfl, ?_, ?_, ?_, ?_, ?_, ?_⟩
        · intro h
          exfalso
          simp only [vector_capacity] at h
          omega
        · intro _
          show w1.arr.length = v.arr.length
          exact hlen1
        · intro i hi hin
          exact hlo i hin
        · intro h
          exfalso
          omega
        · intro _ i hi his
          exact hmid i hi his
        · intro h
          exfalso
          omega
      · rw [if_neg hlt, if_neg hgt]
        have heq : n = v.size := by omega
        refine ⟨v, rfl, by simp [vector_size, heq], ?_, fun _ => rfl,
          fun i _ _ => rfl, ?_, ?_, fun _ => rfl⟩
        · intro h
          exfalso
          simp only [vector_capacity] at h
          omega
        · intro h
          exfalso
          omega
        · intro h
          exfalso
          omega

/-- C6 witness: the resize theorem instantiated at the two-element vector
with n = 5, which grows the size within the existing capacity. -/
theorem c6_witness_grow :
    ∃ w, vector_resize twoVec 5 = Except.ok w ∧
      vector_size w = 5 ∧
      (vector_capacity twoVec < 5 →
        (∃ k, vector_capacity w = 2 ^ k) ∧ 5 ≤ vector_capacity w ∧
        (∀ m, (∃ k, m = 2 ^ k) → 5 ≤ m → vector_capacity w ≤ m)) ∧
      (5 ≤ vector_capacity twoVec → vector_capacity w = vector_capacity twoVec) ∧
      (∀ i, i < twoVec.size → i < 5 → w.arr[i]? = twoVec.arr[i]?) ∧
      (twoVec.size < 5 → ∀ i, twoVec.size ≤ i → i < 5 →
        w.arr[i]? = some (Option.map twoVec.copy_constructor twoVec.default_constructor)) ∧
      (5 < twoVec.size → ∀ i, 5 ≤ i → i < twoVec.size → w.arr[i]? = some none) ∧
      (5 = twoVec.size → w = twoVec) :=
  c6_resize_spec twoVec 5 (by decide) (by norm_num)
